import Mathlib

/-!
# Async message serialization layer: formal model

A shallow embedding of the wire-framing layer exercised by
`src/c++/src/capnp/serialize-async-test.c++`: the segment-table header
codec, the message reader and writer over a byte stream, together with
the test fixtures `FragmentingOutputStream` and `TestMessageBuilder`
that the test file defines.

Bytes are modelled as natural numbers; a stream's contents are the list
of bytes delivered before the stream closed, so end-of-stream is the
exhaustion of the list.  All u32 fields are little-endian.
-/

namespace SerializeAsync

/-- Little-endian encoding of a u32 value into four bytes. -/
def u32le (n : Nat) : List Nat :=
  [n % 256, n / 256 % 256, n / 65536 % 256, n / 16777216 % 256]

/-- Little-endian decoding of four bytes into a u32 value. -/
def u32ofBytes (a b c d : Nat) : Nat :=
  a + 256 * b + 65536 * c + 16777216 * d

/-- Modelled from the spec: `encodeHeader(sizes) -> bytes` (section 4.1 of
the spec; the codec's implementation file is not under `src/`).  Writes
`count - 1` as a u32, then each size as a u32, then one zero padding word
iff `(1 + count)` is odd; fails only on an empty `sizes` sequence. -/
def encodeHeader (sizes : List Nat) : Option (List Nat) :=
  if sizes.isEmpty then none
  else some (u32le (sizes.length - 1) ++ (sizes.map u32le).flatten ++
             (if (1 + sizes.length) % 2 = 1 then u32le 0 else []))

/-- Reads `k` consecutive little-endian u32 words from the front of a byte
list, returning the decoded words and the remaining bytes; `none` when
fewer than `4 * k` bytes are available. -/
def readSizes : Nat → List Nat → Option (List Nat × List Nat)
  | 0, l => some ([], l)
  | k + 1, a :: b :: c :: d :: rest =>
      match readSizes k rest with
      | some (s, r) => some (u32ofBytes a b c d :: s, r)
      | none => none
  | _ + 1, _ => none

/-- Outcome of decoding a segment-table header from the front of a byte
stream. -/
inductive DecodeResult where
  | malformed : DecodeResult
  | insufficient : DecodeResult
  | ok (segmentCount : Nat) (sizes : List Nat) (rest : List Nat) : DecodeResult
  deriving DecidableEq

/-- Modelled from the spec: `decodeHeader(bytes) -> (segmentCount, sizes)`
(section 4.1; the codec's implementation file is not under `src/`).  The
first u32 word plus one (as u32 arithmetic) is the segment count; fails with
MalformedHeader when that count is 0 or exceeds the configured maximum;
otherwise reads that many further u32 words as sizes, then skips the
padding word when `(1 + segmentCount)` is odd.  `insufficient` reports that
the bytes ran out mid-header. -/
def decodeHeader (maxSegs : Nat) (bytes : List Nat) : DecodeResult :=
  match bytes with
  | a :: b :: c :: d :: rest =>
      let segmentCount := (u32ofBytes a b c d + 1) % 4294967296
      if segmentCount = 0 ∨ maxSegs < segmentCount then .malformed
      else
        match readSizes segmentCount rest with
        | none => .insufficient
        | some (sizes, rest2) =>
            if (1 + segmentCount) % 2 = 1 then
              if rest2.length < 4 then .insufficient
              else .ok segmentCount sizes (rest2.drop 4)
            else .ok segmentCount sizes rest2
  | _ => .insufficient

/-- Reads the declared segments off the front of a byte list: for each
declared word count, exactly `size * 8` bytes go into a fresh buffer;
`none` when the bytes run out mid-segment. -/
def readSegs : List Nat → List Nat → Option (List (List Nat) × List Nat)
  | [], l => some ([], l)
  | s :: ss, l =>
      if l.length < s * 8 then none
      else
        match readSegs ss (l.drop (s * 8)) with
        | some (m, r) => some (l.take (s * 8) :: m, r)
        | none => none

/-- Outcome of `readMessage`: the EndOfStream sentinel, the TruncatedStream
error, the MalformedHeader error, or a decoded message (list of segment byte
buffers) together with the bytes left unconsumed on the stream. -/
inductive ReadResult where
  | endOfStream : ReadResult
  | truncated : ReadResult
  | malformed : ReadResult
  | ok (segments : List (List Nat)) (rest : List Nat) : ReadResult
  deriving DecidableEq

/-- Modelled from the spec: `readMessage(stream)` (section 4.2; the async
reader's implementation file is not under `src/`).  The stream is the list
of bytes delivered before close.  An empty stream resolves with the
EndOfStream sentinel; running out of bytes after any byte was consumed is
TruncatedStream; a bad declared segment count is MalformedHeader; otherwise
the segments are read exactly as declared. -/
def readMessage (maxSegs : Nat) (input : List Nat) : ReadResult :=
  if input.isEmpty then .endOfStream
  else
      match decodeHeader maxSegs input with
      | .malformed => .malformed
      | .insufficient => .truncated
      | .ok _ sizes rest =>
          match readSegs sizes rest with
          | none => .truncated
          | some (segs, r) => .ok segs r

/-- Modelled from the spec: `writeMessage(stream, message)` (section 4.3;
the async writer's implementation file is not under `src/`).  The bytes it
pushes onto the stream: the encoded header followed by each segment's raw
bytes in order, with no inter-segment padding. -/
def writeMessage (msg : List (List Nat)) : Option (List Nat) :=
  match encodeHeader (msg.map (fun s => s.length / 8)) with
  | none => none
  | some h => some (h ++ msg.flatten)

/-- Model of `FragmentingOutputStream::write` (serialize-async-test.c++,
lines 45-53): repeatedly picks `n = rand() % size + 1`, forwards the first `n`
bytes to the inner stream, sleeps, and continues with the remainder.  The
`rand()` source is modelled as an oracle `rand : Nat → Nat` indexed by the
call number `i`; the returned list is the sequence of chunks forwarded to
the inner stream. -/
def fragWrite (rand : Nat → Nat) (i : Nat) (buffer : List Nat) : List (List Nat) :=
  match buffer with
  | [] => []
  | x :: xs =>
      let n := rand i % (x :: xs).length + 1
      (x :: xs).take n :: fragWrite rand (i + 1) ((x :: xs).drop n)
termination_by buffer.length
decreasing_by
  simp only [List.length_drop, List.length_cons]
  omega

/-- State of a `TestMessageBuilder` (serialize-async-test.c++, lines 59-88): the
segment-allocation counter, tracked as an integer so that "never goes below
zero" is meaningful, plus whether `ADD_FAILURE` has fired. -/
structure TestMessageBuilder where
  desiredSegmentCount : Int
  failed : Bool
  deriving DecidableEq

/-- Model of `TestMessageBuilder::allocateSegment` (serialize-async-test.c++,
lines 72-84): while the counter exceeds 1, decrement it and allocate a
minimum-size segment; at exactly 1, decrement and allocate an 8192-word
segment; below 1, record a test failure (no decrement) and still allocate
8192 words.  Returns the word count passed to the parent allocator together
with the updated state. -/
def allocateSegment (b : TestMessageBuilder) (minimumSize : Nat) :
    Nat × TestMessageBuilder :=
  if b.desiredSegmentCount ≤ 1 then
    if b.desiredSegmentCount < 1 then
      (8192, { b with failed := true })
    else
      (8192, { b with desiredSegmentCount := b.desiredSegmentCount - 1 })
  else
    (minimumSize, { b with desiredSegmentCount := b.desiredSegmentCount - 1 })

/-- Runs a sequence of `allocateSegment` calls, one per requested minimum
size, returning the allocated word counts in order and the final state. -/
def runAlloc : List Nat → TestMessageBuilder → List Nat × TestMessageBuilder
  | [], b => ([], b)
  | m :: ms, b =>
      let (sz, b1) := allocateSegment b m
      let (szs, b2) := runAlloc ms b1
      (sz :: szs, b2)

/-! ## Codec lemmas -/

theorem u32ofBytes_u32le (n : Nat) (h : n < 4294967296) :
    u32ofBytes (n % 256) (n / 256 % 256) (n / 65536 % 256) (n / 16777216 % 256) = n := by
  unfold u32ofBytes
  omega

theorem readSizes_none_iff (k : Nat) :
    ∀ l : List Nat, readSizes k l = none ↔ l.length < 4 * k := by
  induction k with
  | zero => intro l; simp [readSizes]
  | succ k ih =>
    intro l
    match l with
    | [] => simp [readSizes]
    | [a] => simp [readSizes]; omega
    | [a, b] => simp [readSizes]; omega
    | [a, b, c] => simp [readSizes]; omega
    | a :: b :: c :: d :: rest =>
      simp only [readSizes, List.length_cons]
      constructor
      · intro h
        cases hr : readSizes k rest with
        | none => have := (ih rest).mp hr; omega
        | some p => rw [hr] at h; cases p; simp at h
      · intro h
        rw [(ih rest).mpr (by omega)]

theorem readSizes_some (k : Nat) :
    ∀ (l s : List Nat) (r : List Nat), readSizes k l = some (s, r) →
      s.length = k ∧ r = l.drop (4 * k) ∧ 4 * k ≤ l.length := by
  induction k with
  | zero =>
    intro l s r h
    simp [readSizes] at h
    simp [h.1, h.2]
  | succ k ih =>
    intro l s r h
    match l with
    | [] => simp [readSizes] at h
    | [a] => simp [readSizes] at h
    | [a, b] => simp [readSizes] at h
    | [a, b, c] => simp [readSizes] at h
    | a :: b :: c :: d :: rest =>
      simp only [readSizes] at h
      cases hr : readSizes k rest with
      | none => rw [hr] at h; simp at h
      | some p =>
        rw [hr] at h
        obtain ⟨s', r'⟩ := p
        simp only [Option.some.injEq, Prod.mk.injEq] at h
        obtain ⟨hs, hrr⟩ := h
        obtain ⟨h1, h2, h3⟩ := ih rest s' r' hr
        subst hs hrr
        refine ⟨by simp [h1], ?_, by simp [List.length_cons]; omega⟩
        rw [h2, show 4 * (k + 1) = 4 * k + 1 + 1 + 1 + 1 by omega]
        simp only [List.drop_succ_cons]

theorem readSizes_encode :
    ∀ (sizes : List Nat), (∀ s ∈ sizes, s < 4294967296) →
      ∀ rest : List Nat,
        readSizes sizes.length ((sizes.map u32le).flatten ++ rest) = some (sizes, rest) := by
  intro sizes
  induction sizes with
  | nil => intro _ rest; simp [readSizes]
  | cons s ss ih =>
    intro h rest
    have hs : s < 4294967296 := h s (by simp)
    simp only [List.map_cons, List.flatten_cons, List.length_cons, List.append_assoc]
    simp only [u32le, List.cons_append, List.nil_append]
    simp only [readSizes]
    rw [ih (fun x hx => h x (by simp [hx])) rest]
    simp [u32ofBytes_u32le s hs]

theorem readSegs_none_iff :
    ∀ (sizes l : List Nat),
      readSegs sizes l = none ↔ l.length < (sizes.map (· * 8)).sum := by
  intro sizes
  induction sizes with
  | nil => intro l; simp [readSegs]
  | cons s ss ih =>
    intro l
    simp only [readSegs, List.map_cons, List.sum_cons]
    by_cases hl : l.length < s * 8
    · simp only [if_pos hl]
      simp
      omega
    · simp only [if_neg hl]
      cases hr : readSegs ss (l.drop (s * 8)) with
      | none =>
        have := (ih _).mp hr
        simp only [List.length_drop] at this
        simp
        omega
      | some p =>
        obtain ⟨m, r⟩ := p
        have hnn : readSegs ss (l.drop (s * 8)) ≠ none := by rw [hr]; simp
        have h2 : ¬((l.drop (s * 8)).length < (ss.map (· * 8)).sum) :=
          fun hlt => hnn ((ih _).mpr hlt)
        simp only [List.length_drop] at h2
        simp
        omega

theorem readSegs_encode :
    ∀ (msg : List (List Nat)), (∀ seg ∈ msg, seg.length % 8 = 0) →
      ∀ rest : List Nat,
        readSegs (msg.map (fun s => s.length / 8)) (msg.flatten ++ rest) =
          some (msg, rest) := by
  intro msg
  induction msg with
  | nil => intro _ rest; simp [readSegs]
  | cons seg ms ih =>
    intro h rest
    have h8 : seg.length % 8 = 0 := h seg (by simp)
    have hmul : seg.length / 8 * 8 = seg.length :=
      Nat.div_mul_cancel (Nat.dvd_of_mod_eq_zero h8)
    simp only [List.map_cons, List.flatten_cons, readSegs, List.append_assoc, hmul]
    rw [if_neg (by simp)]
    rw [List.drop_left, ih (fun x hx => h x (by simp [hx])) rest, List.take_left]

theorem encodeHeader_eq (sizes : List Nat) (hne : sizes ≠ []) :
    encodeHeader sizes =
      some (u32le (sizes.length - 1) ++ (sizes.map u32le).flatten ++
            (if (1 + sizes.length) % 2 = 1 then u32le 0 else [])) := by
  unfold encodeHeader
  rw [if_neg (by simpa using hne)]

theorem decodeHeader_encoded (maxSegs : Nat) (sizes : List Nat) (rest : List Nat)
    (hne : sizes ≠ []) (hcnt : sizes.length ≤ maxSegs)
    (hlt : sizes.length < 4294967296)
    (hsz : ∀ s ∈ sizes, s < 4294967296) (hd : List Nat)
    (he : encodeHeader sizes = some hd) :
    decodeHeader maxSegs (hd ++ rest) = .ok sizes.length sizes rest := by
  rw [encodeHeader_eq sizes hne] at he
  injection he with he
  subst he
  have hn1 : 1 ≤ sizes.length := List.length_pos.mpr hne
  simp only [u32le, List.cons_append, List.nil_append, List.append_assoc]
  simp only [decodeHeader]
  have hdec : (u32ofBytes ((sizes.length - 1) % 256) ((sizes.length - 1) / 256 % 256)
      ((sizes.length - 1) / 65536 % 256) ((sizes.length - 1) / 16777216 % 256) + 1) %
      4294967296 = sizes.length := by
    rw [u32ofBytes_u32le _ (by omega)]
    omega
  rw [hdec]
  rw [if_neg (by omega)]
  by_cases hpar : (1 + sizes.length) % 2 = 1
  · simp only [if_pos hpar]
    rw [readSizes_encode sizes hsz _]
    simp only [u32le, if_pos hpar]
    simp [List.drop_succ_cons]
  · simp only [if_neg hpar]
    rw [readSizes_encode sizes hsz _]
    simp only [if_neg hpar]
    simp

/-! ## Round-trip lemmas -/

theorem writeMessage_eq (msg : List (List Nat)) (hne : msg ≠ []) :
    ∃ hd, encodeHeader (msg.map (fun s => s.length / 8)) = some hd ∧
      writeMessage msg = some (hd ++ msg.flatten) := by
  have hne' : msg.map (fun s => s.length / 8) ≠ [] := by simpa using hne
  obtain ⟨hd, he⟩ : ∃ hd, encodeHeader (msg.map (fun s => s.length / 8)) = some hd :=
    ⟨_, encodeHeader_eq _ hne'⟩
  exact ⟨hd, he, by unfold writeMessage; rw [he]⟩

theorem encodeHeader_ne_nil (sizes : List Nat) (hd : List Nat)
    (he : encodeHeader sizes = some hd) : hd ≠ [] := by
  unfold encodeHeader at he
  by_cases h : sizes.isEmpty
  · rw [if_pos h] at he; exact absurd he (by simp)
  · rw [if_neg h] at he
    injection he with he
    subst he
    simp [u32le]

theorem readMessage_writeMessage (maxSegs : Nat) (msg : List (List Nat))
    (out : List Nat)
    (hne : msg ≠ []) (hcnt : msg.length ≤ maxSegs) (hlt : msg.length < 4294967296)
    (hseg : ∀ seg ∈ msg, seg.length % 8 = 0 ∧ seg.length / 8 < 4294967296)
    (hw : writeMessage msg = some out) :
    readMessage maxSegs out = .ok msg [] := by
  obtain ⟨hd, he, hw'⟩ := writeMessage_eq msg hne
  rw [hw'] at hw
  injection hw with hw
  subst hw
  have hdh := decodeHeader_encoded maxSegs (msg.map (fun s => s.length / 8))
    msg.flatten (by simpa using hne) (by simpa using hcnt) (by simpa using hlt)
    (by
      intro s hs
      simp only [List.mem_map] at hs
      obtain ⟨seg, hseg', rfl⟩ := hs
      exact (hseg seg hseg').2) hd he
  unfold readMessage
  have hdne : hd ≠ [] := encodeHeader_ne_nil _ hd he
  rw [if_neg (by
        cases hd with
        | nil => exact absurd rfl hdne
        | cons x xs => simp)]
  have hsegs := readSegs_encode msg (fun seg hs => (hseg seg hs).1) []
  rw [List.append_nil] at hsegs
  simp only [hdh]
  rw [hsegs]

/-! ## Fragmentation lemmas -/

theorem fragWrite_cons (rand : Nat → Nat) (i x : Nat) (xs : List Nat) :
    fragWrite rand i (x :: xs) =
      (x :: xs).take (rand i % (x :: xs).length + 1) ::
        fragWrite rand (i + 1) ((x :: xs).drop (rand i % (x :: xs).length + 1)) := by
  rw [fragWrite]

theorem fragWrite_spec (rand : Nat → Nat) :
    ∀ (m i : Nat) (buf : List Nat), buf.length ≤ m →
      (fragWrite rand i buf).flatten = buf ∧
      (∀ c ∈ fragWrite rand i buf, c ≠ []) ∧
      (fragWrite rand i buf).length ≤ buf.length := by
  intro m
  induction m with
  | zero =>
    intro i buf h
    have hb : buf = [] := List.eq_nil_of_length_eq_zero (by omega)
    subst hb
    simp [fragWrite]
  | succ m ih =>
    intro i buf h
    cases buf with
    | nil => simp [fragWrite]
    | cons x xs =>
      rw [fragWrite_cons]
      have hlen : ((x :: xs).drop (rand i % (x :: xs).length + 1)).length ≤ m := by
        simp only [List.length_drop, List.length_cons]
        simp only [List.length_cons] at h
        omega
      obtain ⟨ih1, ih2, ih3⟩ := ih (i + 1) _ hlen
      refine ⟨?_, ?_, ?_⟩
      · simp only [List.flatten_cons, ih1, List.take_append_drop]
      · intro c hc
        simp only [List.mem_cons] at hc
        rcases hc with rfl | hc
        · simp
        · exact ih2 c hc
      · simp only [List.length_cons]
        simp only [List.length_drop, List.length_cons] at ih3
        omega

theorem fragWrite_flatten (rand : Nat → Nat) (i : Nat) (buf : List Nat) :
    (fragWrite rand i buf).flatten = buf :=
  (fragWrite_spec rand buf.length i buf (le_refl _)).1

/-- The bytes still to be forwarded once the first `j` chunks have gone out:
the flattening of the chunks from position `j` on. -/
theorem chunk_le_remaining (cs : List (List Nat)) (j : Nat) (hj : j < cs.length) :
    (cs.get ⟨j, hj⟩).length ≤ ((cs.drop j).flatten).length := by
  rw [List.drop_eq_getElem_cons hj, List.flatten_cons, List.length_append,
      List.get_eq_getElem]
  exact Nat.le_add_right _ _

/-! ## Truncation lemmas -/

theorem decodeHeader_short (maxSegs : Nat) (l : List Nat) (h : l.length < 4) :
    decodeHeader maxSegs l = .insufficient := by
  cases l with
  | nil => rfl
  | cons a l =>
    cases l with
    | nil => rfl
    | cons b l =>
      cases l with
      | nil => rfl
      | cons c l =>
        cases l with
        | nil => rfl
        | cons d l => simp only [List.length_cons] at h; omega

theorem sizesBytes_length (sizes : List Nat) :
    ((sizes.map u32le).flatten).length = 4 * sizes.length := by
  induction sizes with
  | nil => simp
  | cons s ss ih =>
    simp only [List.map_cons, List.flatten_cons, List.length_append, ih,
               List.length_cons, u32le]
    simp
    omega

theorem segSum_eq (msg : List (List Nat)) (h : ∀ seg ∈ msg, seg.length % 8 = 0) :
    ((msg.map (fun s => s.length / 8)).map (· * 8)).sum = msg.flatten.length := by
  induction msg with
  | nil => simp
  | cons seg ms ih =>
    have h8 := h seg (by simp)
    have hmul : seg.length / 8 * 8 = seg.length :=
      Nat.div_mul_cancel (Nat.dvd_of_mod_eq_zero h8)
    simp only [List.map_cons, List.sum_cons, List.flatten_cons, List.length_append,
               hmul, ih (fun x hx => h x (by simp [hx]))]

theorem decodeHeader_first_word (maxSegs : Nat) (n : Nat) (hn1 : 1 ≤ n)
    (hlt : n < 4294967296) (hcnt : n ≤ maxSegs) (t : List Nat) :
    decodeHeader maxSegs (u32le (n - 1) ++ t) =
      (match readSizes n t with
       | none => .insufficient
       | some (sizes, rest2) =>
           if (1 + n) % 2 = 1 then
             if rest2.length < 4 then .insufficient
             else .ok n sizes (rest2.drop 4)
           else .ok n sizes rest2) := by
  simp only [u32le, List.cons_append, List.nil_append]
  simp only [decodeHeader]
  have hdec : (u32ofBytes ((n - 1) % 256) ((n - 1) / 256 % 256)
      ((n - 1) / 65536 % 256) ((n - 1) / 16777216 % 256) + 1) % 4294967296 = n := by
    rw [u32ofBytes_u32le _ (by omega)]
    omega
  rw [hdec, if_neg (by omega)]

theorem decodeHeader_header_truncated (maxSegs : Nat) (sizes : List Nat)
    (hd : List Nat)
    (hne : sizes ≠ []) (hcnt : sizes.length ≤ maxSegs)
    (hlt : sizes.length < 4294967296) (hsz : ∀ s ∈ sizes, s < 4294967296)
    (he : encodeHeader sizes = some hd) (k : Nat) (hk : k < hd.length) :
    decodeHeader maxSegs (hd.take k) = .insufficient := by
  rw [encodeHeader_eq sizes hne] at he
  injection he with he
  subst he
  have hn1 : 1 ≤ sizes.length := List.length_pos.mpr hne
  have hlen4 : (u32le (sizes.length - 1)).length = 4 := by simp [u32le]
  have hsbl : ((sizes.map u32le).flatten).length = 4 * sizes.length :=
    sizesBytes_length sizes
  by_cases hk4 : k < 4
  · apply decodeHeader_short
    simp only [List.length_take]
    omega
  · push_neg at hk4
    rw [List.append_assoc, List.take_append_eq_append_take,
        List.take_of_length_le (by omega), hlen4,
        decodeHeader_first_word maxSegs sizes.length hn1 hlt hcnt _]
    simp only [List.length_append, hlen4, hsbl] at hk
    by_cases hpar : (1 + sizes.length) % 2 = 1
    · simp only [if_pos hpar] at hk ⊢
      simp only [u32le, List.length_cons, List.length_nil] at hk
      by_cases hB1 : k - 4 < 4 * sizes.length
      · rw [(readSizes_none_iff sizes.length _).mpr
              (by simp only [List.length_take, List.length_append, hsbl]; omega)]
      · push_neg at hB1
        rw [List.take_append_eq_append_take, List.take_of_length_le (by omega),
            hsbl, readSizes_encode sizes hsz _]
        simp only [if_pos hpar]
        rw [if_pos (by simp only [List.length_take, u32le, List.length_cons,
              List.length_nil]; omega)]
    · simp only [if_neg hpar, List.append_nil, List.length_nil] at hk ⊢
      rw [(readSizes_none_iff sizes.length _).mpr
            (by simp only [List.length_take, hsbl]; omega)]

theorem readMessage_truncated_take (maxSegs : Nat) (msg : List (List Nat))
    (out : List Nat) (k : Nat)
    (hne : msg ≠ []) (hcnt : msg.length ≤ maxSegs) (hlt : msg.length < 4294967296)
    (hseg : ∀ seg ∈ msg, seg.length % 8 = 0 ∧ seg.length / 8 < 4294967296)
    (hw : writeMessage msg = some out) (hk1 : 1 ≤ k) (hk2 : k < out.length) :
    readMessage maxSegs (out.take k) = .truncated := by
  obtain ⟨hd, he, hw'⟩ := writeMessage_eq msg hne
  rw [hw'] at hw
  injection hw with hw
  subst hw
  have hsz' : ∀ s ∈ msg.map (fun s => s.length / 8), s < 4294967296 := by
    intro s hs
    simp only [List.mem_map] at hs
    obtain ⟨seg, hseg', rfl⟩ := hs
    exact (hseg seg hseg').2
  have hout : (hd ++ msg.flatten).length = hd.length + msg.flatten.length :=
    List.length_append hd msg.flatten
  unfold readMessage
  rw [if_neg (by
        simp only [List.isEmpty_iff, List.take_eq_nil_iff]
        push_neg
        constructor
        · omega
        · intro hcontra
          rw [hcontra] at hk2
          simp only [List.length_nil] at hk2
          omega)]
  by_cases hcase : k < hd.length
  · have htake : (hd ++ msg.flatten).take k = hd.take k := by
      rw [List.take_append_eq_append_take, Nat.sub_eq_zero_of_le (by omega),
          List.take_zero, List.append_nil]
    rw [htake, decodeHeader_header_truncated maxSegs _ hd (by simpa using hne)
          (by simpa using hcnt) (by simpa using hlt) hsz' he k
          (by simpa using hcase)]
  · push_neg at hcase
    have htake : (hd ++ msg.flatten).take k =
        hd ++ msg.flatten.take (k - hd.length) := by
      rw [List.take_append_eq_append_take, List.take_of_length_le hcase]
    rw [htake]
    have hdh := decodeHeader_encoded maxSegs (msg.map (fun s => s.length / 8))
      (msg.flatten.take (k - hd.length)) (by simpa using hne)
      (by simpa using hcnt) (by simpa using hlt) hsz' hd he
    have hnone : readSegs (msg.map (fun s => s.length / 8))
        (msg.flatten.take (k - hd.length)) = none := by
      rw [readSegs_none_iff, segSum_eq msg (fun seg hs => (hseg seg hs).1)]
      simp only [List.length_take]
      omega
    simp only [hdh, hnone]

/-! ## Element extraction (repeated-structure scenario) -/

/-- Splits a segment that encodes `n` consecutive fixed-size elements of
`sz` bytes each into the list of those elements' byte buffers. -/
def elementsOf (n sz : Nat) (seg : List Nat) : List (List Nat) :=
  (List.range n).map (fun i => (seg.drop (i * sz)).take sz)

theorem replicate_flatten_extract (e : List Nat) :
    ∀ (n i : Nat), i < n →
      (((List.replicate n e).flatten).drop (i * e.length)).take e.length = e := by
  intro n
  induction n with
  | zero => intro i h; omega
  | succ n ih =>
    intro i h
    cases i with
    | zero =>
      simp only [List.replicate_succ, List.flatten_cons, Nat.zero_mul,
                 List.drop_zero]
      exact List.take_left e _
    | succ i =>
      simp only [List.replicate_succ, List.flatten_cons]
      rw [show (i + 1) * e.length = e.length + i * e.length by ring,
          List.drop_append (i * e.length)]
      exact ih i (by omega)

theorem elementsOf_replicate (n : Nat) (e : List Nat) :
    elementsOf n e.length ((List.replicate n e).flatten) = List.replicate n e := by
  apply List.ext_getElem
  · simp [elementsOf]
  · intro i h1 h2
    simp only [elementsOf, List.getElem_map, List.getElem_range,
               List.getElem_replicate]
    apply replicate_flatten_extract
    simpa [elementsOf] using h1

/-! ## Segment-allocation lemmas -/

theorem allocateSegment_last (m : Nat) :
    allocateSegment ⟨(1 : Int), false⟩ m = (8192, ⟨0, false⟩) := by
  unfold allocateSegment
  norm_num

theorem allocateSegment_mid (c : Nat) (m : Nat) (hc : 2 ≤ c) :
    allocateSegment ⟨(c : Int), false⟩ m = (m, ⟨(c : Int) - 1, false⟩) := by
  unfold allocateSegment
  rw [if_neg (by push_cast; omega)]

theorem runAlloc_cons (m : Nat) (ms : List Nat) (b : TestMessageBuilder) :
    runAlloc (m :: ms) b =
      ((allocateSegment b m).1 :: (runAlloc ms (allocateSegment b m).2).1,
       (runAlloc ms (allocateSegment b m).2).2) := by
  simp only [runAlloc]

theorem runAlloc_exact :
    ∀ (ms : List Nat) (c : Nat), 1 ≤ c → ms.length = c →
      runAlloc ms ⟨(c : Int), false⟩ = (ms.take (c - 1) ++ [8192], ⟨0, false⟩) := by
  intro ms
  induction ms with
  | nil =>
    intro c h1 h2
    simp only [List.length_nil] at h2
    omega
  | cons m ms ih =>
    intro c h1 h2
    simp only [List.length_cons] at h2
    cases ms with
    | nil =>
      have hc1 : c = 1 := by simp only [List.length_nil] at h2; omega
      subst hc1
      simp [runAlloc, allocateSegment_last]
    | cons m2 ms2 =>
      have hc2 : 2 ≤ c := by
        simp only [List.length_cons] at h2
        omega
      rw [runAlloc_cons, allocateSegment_mid c m hc2]
      have hcast : (c : Int) - 1 = ((c - 1 : Nat) : Int) := by omega
      rw [hcast, ih (c - 1) (by omega) (by omega)]
      rw [show c - 1 = (c - 2) + 1 by omega, List.take_succ_cons]
      simp

theorem runAlloc_counter :
    ∀ (ms : List Nat) (c : Nat), ms.length ≤ c → 1 ≤ c →
      (runAlloc ms ⟨(c : Int), false⟩).2 = ⟨(c : Int) - ms.length, false⟩ := by
  intro ms
  induction ms with
  | nil => intro c h1 h2; simp [runAlloc]
  | cons m ms ih =>
    intro c h1 h2
    simp only [List.length_cons] at h1
    by_cases hc : c = 1
    · subst hc
      have hml : ms = [] := by
        have : ms.length = 0 := by omega
        exact List.eq_nil_of_length_eq_zero this
      subst hml
      simp [runAlloc, allocateSegment_last]
    · have hc2 : 2 ≤ c := by omega
      rw [runAlloc_cons, allocateSegment_mid c m hc2]
      have hcast : (c : Int) - 1 = ((c - 1 : Nat) : Int) := by omega
      rw [hcast, ih (c - 1) (by omega) (by omega)]
      simp only [List.length_cons]
      congr 1
      push_cast
      omega

/-! ## Claim theorems -/

/-- C1: for every Message with one or more segments of arbitrary
non-negative word counts (zero-length segments included), `writeMessage`
on one end followed by `readMessage` on the other yields a Message whose
segment count equals the original's and whose per-segment byte contents
are byte-identical to the original's. -/
theorem c1_roundtrip (maxSegs : Nat) (msg : List (List Nat))
    (hne : msg ≠ []) (hcnt : msg.length ≤ maxSegs)
    (hlt : msg.length < 4294967296)
    (hseg : ∀ seg ∈ msg, seg.length % 8 = 0 ∧ seg.length / 8 < 4294967296) :
    ∃ out, writeMessage msg = some out ∧
      readMessage maxSegs out = .ok msg [] := by
  obtain ⟨hd, he, hw⟩ := writeMessage_eq msg hne
  exact ⟨hd ++ msg.flatten, hw,
    readMessage_writeMessage maxSegs msg _ hne hcnt hlt hseg hw⟩

theorem c1_roundtrip_witness :
    ∃ out, writeMessage [[1, 2, 3, 4, 5, 6, 7, 8], []] = some out ∧
      readMessage 512 out = .ok [[1, 2, 3, 4, 5, 6, 7, 8], []] [] :=
  c1_roundtrip 512 [[1, 2, 3, 4, 5, 6, 7, 8], []]
    (by decide) (by decide) (by decide) (by decide)

/-- C2: the decoded result is independent of the fragmentation schedule:
whatever chunking delivers the written bytes — in particular the chunking
produced by `FragmentingOutputStream` under an arbitrary random oracle,
down to single-byte chunks — reading the delivered concatenation yields a
Message with the same segment count and byte-identical segments. -/
theorem c2_fragmentation_independence (maxSegs : Nat) (msg : List (List Nat))
    (out : List Nat)
    (hne : msg ≠ []) (hcnt : msg.length ≤ maxSegs)
    (hlt : msg.length < 4294967296)
    (hseg : ∀ seg ∈ msg, seg.length % 8 = 0 ∧ seg.length / 8 < 4294967296)
    (hw : writeMessage msg = some out) :
    (∀ chunks : List (List Nat), chunks.flatten = out →
        readMessage maxSegs chunks.flatten = .ok msg []) ∧
    (∀ (rand : Nat → Nat) (i : Nat),
        readMessage maxSegs ((fragWrite rand i out).flatten) = .ok msg []) := by
  have hbase := readMessage_writeMessage maxSegs msg out hne hcnt hlt hseg hw
  constructor
  · intro chunks hc
    rw [hc]
    exact hbase
  · intro rand i
    rw [fragWrite_flatten]
    exact hbase

theorem c2_fragmentation_independence_witness :
    readMessage 512
        ((fragWrite (fun _ => 0) 0
            [0, 0, 0, 0, 1, 0, 0, 0, 1, 2, 3, 4, 5, 6, 7, 8]).flatten) =
      .ok [[1, 2, 3, 4, 5, 6, 7, 8]] [] :=
  (c2_fragmentation_independence 512 [[1, 2, 3, 4, 5, 6, 7, 8]]
    [0, 0, 0, 0, 1, 0, 0, 0, 1, 2, 3, 4, 5, 6, 7, 8]
    (by decide) (by decide) (by decide) (by decide) (by decide)).2 (fun _ => 0) 0

/-- C3: the encoded header carries one zero-padding u32 word exactly when
`1 + segmentCount` is odd, so its byte length is always a multiple of 8;
a 7-segment message yields a 32-byte header with no padding word, a
10-segment message a 48-byte header containing the padding word, and both
decode back to the declared count and sizes. -/
theorem c3_header_alignment (sizes : List Nat) (hne : sizes ≠ []) :
    (∃ hd, encodeHeader sizes = some hd ∧
       hd.length = 4 * (1 + sizes.length) +
         (if (1 + sizes.length) % 2 = 1 then 4 else 0) ∧
       hd.length % 8 = 0) ∧
    (((encodeHeader (List.replicate 7 1)).getD []).length = 32 ∧
      decodeHeader 512 ((encodeHeader (List.replicate 7 1)).getD []) =
        .ok 7 (List.replicate 7 1) []) ∧
    (((encodeHeader (List.replicate 10 1)).getD []).length = 48 ∧
      decodeHeader 512 ((encodeHeader (List.replicate 10 1)).getD []) =
        .ok 10 (List.replicate 10 1) []) := by
  refine ⟨?_, by decide, by decide⟩
  refine ⟨_, encodeHeader_eq sizes hne, ?_, ?_⟩
  · simp only [List.length_append, sizesBytes_length, u32le, List.length_cons,
               List.length_nil]
    by_cases hpar : (1 + sizes.length) % 2 = 1 <;> simp only [if_pos, if_neg, hpar] <;>
      simp [hpar] <;> omega
  · simp only [List.length_append, sizesBytes_length, u32le, List.length_cons,
               List.length_nil]
    by_cases hpar : (1 + sizes.length) % 2 = 1 <;> simp [hpar] <;> omega

theorem c3_header_alignment_witness :
    ∃ hd, encodeHeader [5] = some hd ∧
      hd.length = 4 * (1 + [5].length) +
        (if (1 + [5].length) % 2 = 1 then 4 else 0) ∧
      hd.length % 8 = 0 :=
  (c3_header_alignment [5] (by decide)).1

/-- C4: `readMessage` resolves with the EndOfStream sentinel exactly when
the stream was already at end-of-stream with zero bytes ever delivered; in
particular it never reports an error on an empty stream, and a nonempty
stream never yields EndOfStream. -/
theorem c4_clean_shutdown (maxSegs : Nat) (input : List Nat) :
    readMessage maxSegs input = .endOfStream ↔ input = [] := by
  constructor
  · intro h
    by_contra hne
    unfold readMessage at h
    rw [if_neg (by simpa [List.isEmpty_iff] using hne)] at h
    split at h
    · simp at h
    · simp at h
    · split at h
      · simp at h
      · simp at h
  · intro h
    subst h
    rfl

theorem c4_clean_shutdown_witness :
    readMessage 512 [] = ReadResult.endOfStream :=
  (c4_clean_shutdown 512 []).mpr rfl

/-- C5: if the stream ends after at least one byte of the framed message
was delivered but before the full declared header and all declared segment
bytes, `readMessage` resolves with TruncatedStream — never with a partial
Message: every proper nonempty byte-count cut of a framed message reads as
truncated. -/
theorem c5_truncation (maxSegs : Nat) (msg : List (List Nat)) (out : List Nat)
    (k : Nat)
    (hne : msg ≠ []) (hcnt : msg.length ≤ maxSegs)
    (hlt : msg.length < 4294967296)
    (hseg : ∀ seg ∈ msg, seg.length % 8 = 0 ∧ seg.length / 8 < 4294967296)
    (hw : writeMessage msg = some out) (hk1 : 1 ≤ k) (hk2 : k < out.length) :
    readMessage maxSegs (out.take k) = .truncated :=
  readMessage_truncated_take maxSegs msg out k hne hcnt hlt hseg hw hk1 hk2

theorem c5_truncation_witness :
    readMessage 512
        ([0, 0, 0, 0, 1, 0, 0, 0, 1, 2, 3, 4, 5, 6, 7, 8].take 2) =
      ReadResult.truncated :=
  c5_truncation 512 [[1, 2, 3, 4, 5, 6, 7, 8]]
    [0, 0, 0, 0, 1, 0, 0, 0, 1, 2, 3, 4, 5, 6, 7, 8] 2
    (by decide) (by decide) (by decide) (by decide) (by decide) (by decide)
    (by decide)

/-- C6: `decodeHeader` computes the segment count as the first u32 word
plus one (as u32 arithmetic); it fails with MalformedHeader exactly when
that declared count is 0 or exceeds the configured maximum — returning no
sizes in that case — and on success returns exactly that many further u32
words read off the stream as the sizes. -/
theorem c6_decodeHeader_spec (maxSegs a b c d : Nat) (rest : List Nat) :
    (decodeHeader maxSegs (a :: b :: c :: d :: rest) = .malformed ↔
      ((u32ofBytes a b c d + 1) % 4294967296 = 0 ∨
        maxSegs < (u32ofBytes a b c d + 1) % 4294967296)) ∧
    (∀ count sizes r,
      decodeHeader maxSegs (a :: b :: c :: d :: rest) = .ok count sizes r →
        count = (u32ofBytes a b c d + 1) % 4294967296 ∧
        sizes.length = count ∧
        ∃ r2, readSizes count rest = some (sizes, r2)) := by
  constructor
  · constructor
    · intro h
      by_contra hcond
      simp only [decodeHeader] at h
      rw [if_neg hcond] at h
      split at h
      · simp at h
      · split at h
        · split at h
          · simp at h
          · simp at h
        · simp at h
    · intro h
      simp only [decodeHeader]
      rw [if_pos h]
  · intro count sizes r h
    simp only [decodeHeader] at h
    split at h
    · simp at h
    next hcond =>
      split at h
      · simp at h
      next sizes2 rest2 hs =>
        split at h
        · split at h
          · simp at h
          · simp only [DecodeResult.ok.injEq] at h
            obtain ⟨hc, hsz, hr⟩ := h
            subst hc
            subst hsz
            exact ⟨rfl, (readSizes_some _ _ _ _ hs).1, rest2, hs⟩
        · simp only [DecodeResult.ok.injEq] at h
          obtain ⟨hc, hsz, hr⟩ := h
          subst hc
          subst hsz
          exact ⟨rfl, (readSizes_some _ _ _ _ hs).1, rest2, hs⟩

theorem c6_decodeHeader_spec_witness :
    decodeHeader 512 [255, 255, 255, 255] = DecodeResult.malformed :=
  (c6_decodeHeader_spec 512 255 255 255 255 []).1.mpr (by decide)

/-- C7: a message whose single segment encodes 16 identical fixed-size
elements round-trips: reading the written bytes reconstructs the segment,
which splits into a sequence of exactly 16 elements, each byte-identical
to the source element. -/
theorem c7_sixteen_elements (maxSegs : Nat) (e : List Nat)
    (he8 : e.length % 8 = 0) (hsz : e.length < 2147483648)
    (hmax : 1 ≤ maxSegs) :
    ∃ out, writeMessage [(List.replicate 16 e).flatten] = some out ∧
      readMessage maxSegs out = .ok [(List.replicate 16 e).flatten] [] ∧
      elementsOf 16 e.length ((List.replicate 16 e).flatten) =
        List.replicate 16 e ∧
      (elementsOf 16 e.length ((List.replicate 16 e).flatten)).length = 16 := by
  have hlen : ((List.replicate 16 e).flatten).length = 16 * e.length := by
    rw [List.length_flatten, List.map_replicate, List.sum_replicate,
        smul_eq_mul]
  have hsegs : ∀ seg ∈ [(List.replicate 16 e).flatten],
      seg.length % 8 = 0 ∧ seg.length / 8 < 4294967296 := by
    intro seg hs
    simp only [List.mem_singleton] at hs
    subst hs
    rw [hlen]
    omega
  obtain ⟨hd, he, hw⟩ := writeMessage_eq [(List.replicate 16 e).flatten]
    (by simp)
  refine ⟨hd ++ [(List.replicate 16 e).flatten].flatten, hw,
    readMessage_writeMessage maxSegs _ _ (by simp) (by simpa using hmax)
      (by simp) hsegs hw,
    elementsOf_replicate 16 e, by simp [elementsOf]⟩

theorem c7_sixteen_elements_witness :
    ∃ out,
      writeMessage [(List.replicate 16 [1, 2, 3, 4, 5, 6, 7, 8]).flatten] =
        some out ∧
      readMessage 512 out =
        .ok [(List.replicate 16 [1, 2, 3, 4, 5, 6, 7, 8]).flatten] [] ∧
      elementsOf 16 [1, 2, 3, 4, 5, 6, 7, 8].length
          ((List.replicate 16 [1, 2, 3, 4, 5, 6, 7, 8]).flatten) =
        List.replicate 16 [1, 2, 3, 4, 5, 6, 7, 8] ∧
      (elementsOf 16 [1, 2, 3, 4, 5, 6, 7, 8].length
          ((List.replicate 16 [1, 2, 3, 4, 5, 6, 7, 8]).flatten)).length = 16 :=
  c7_sixteen_elements 512 [1, 2, 3, 4, 5, 6, 7, 8]
    (by decide) (by decide) (by decide)

/-- C8: `FragmentingOutputStream::write` forwards to the inner stream a
sequence of chunks whose concatenation is exactly the input buffer in the
original order — no byte dropped, duplicated, or reordered — and each
chunk is nonempty and no longer than the bytes still remaining when it is
sent. -/
theorem c8_fragwrite_faithful (rand : Nat → Nat) (i : Nat) (buf : List Nat) :
    (fragWrite rand i buf).flatten = buf ∧
    (∀ c ∈ fragWrite rand i buf, c ≠ []) ∧
    (∀ j (hj : j < (fragWrite rand i buf).length),
        ((fragWrite rand i buf).get ⟨j, hj⟩).length ≤
          (((fragWrite rand i buf).drop j).flatten).length) := by
  obtain ⟨h1, h2, h3⟩ := fragWrite_spec rand buf.length i buf (le_refl _)
  exact ⟨h1, h2, fun j hj => chunk_le_remaining _ j hj⟩

theorem c8_fragwrite_faithful_witness :
    (fragWrite (fun _ => 0) 0 [1, 2, 3]).flatten = [1, 2, 3] :=
  (c8_fragwrite_faithful (fun _ => 0) 0 [1, 2, 3]).1

/-- C9: `FragmentingOutputStream::write` terminates on every finite input:
each loop iteration forwards at least one byte, so the number of chunks
sent — the number of loop iterations — is at most the input size. -/
theorem c9_fragwrite_terminates (rand : Nat → Nat) (i : Nat) (buf : List Nat) :
    (fragWrite rand i buf).length ≤ buf.length ∧
    (∀ c ∈ fragWrite rand i buf, 1 ≤ c.length) := by
  obtain ⟨h1, h2, h3⟩ := fragWrite_spec rand buf.length i buf (le_refl _)
  refine ⟨h3, fun c hc => ?_⟩
  have hne := h2 c hc
  cases c with
  | nil => exact absurd rfl hne
  | cons x xs => simp

theorem c9_fragwrite_terminates_witness :
    (fragWrite (fun j => j + 1) 0 [9, 9, 9, 9]).length ≤ [9, 9, 9, 9].length :=
  (c9_fragwrite_terminates (fun j => j + 1) 0 [9, 9, 9, 9]).1

/-- C10: a `TestMessageBuilder` with desired count `n` allocates exactly as
intended: the first `n - 1` calls return the requested minimum sizes, the
`n`-th call returns the large 8192-word segment, the counter decreases by
exactly one per call, never goes below zero, reaches exactly zero after
`n` calls, and `ADD_FAILURE` never fires. -/
theorem c10_builder_counter (n : Nat) (ms : List Nat)
    (h1 : 1 ≤ n) (h2 : ms.length = n) :
    runAlloc ms ⟨(n : Int), false⟩ = (ms.take (n - 1) ++ [8192], ⟨0, false⟩) ∧
    (∀ k, k ≤ n →
      (runAlloc (ms.take k) ⟨(n : Int), false⟩).2 =
        ⟨(n : Int) - (k : Int), false⟩ ∧
      0 ≤ (runAlloc (ms.take k) ⟨(n : Int), false⟩).2.desiredSegmentCount) := by
  refine ⟨runAlloc_exact ms n h1 h2, ?_⟩
  intro k hk
  have hlen : (ms.take k).length = k := by
    simp only [List.length_take]
    omega
  have hc := runAlloc_counter (ms.take k) n (by omega) h1
  rw [hlen] at hc
  refine ⟨hc, ?_⟩
  rw [hc]
  simp
  omega

theorem c10_builder_counter_witness :
    runAlloc [7, 7, 7] ⟨(3 : Int), false⟩ =
      ([7, 7, 8192], ⟨0, false⟩) :=
  (c10_builder_counter 3 [7, 7, 7] (by decide) (by decide)).1

end SerializeAsync
